import Mathlib

/-!
Verification of the cryptoquote solver (`src/main.rs`).

The Rust program is embedded shallowly:
* bytes (`u8`) become `Nat` (claims only involve ASCII letters, where the
  `u8` arithmetic of the source never wraps);
* `Mapping { map: [Option<u8>; 26], members: u32 }` becomes a structure with
  a `List (Option Nat)` of length 26 and a `Nat` bitset;
* `Result<Mapping, ()>` becomes `Option Mapping` (`none` is the error);
* the dictionary `&[HashSet<&[u8]>]` becomes `List (List (List Nat))`
  (buckets of words, a word being a list of byte values); `HashSet`
  membership becomes list membership, which has the same semantics;
* `words.txt`, a data resource bundled at build time and not present under
  `src/`, is a parameter `words : List (List Nat)`;
* the Rust panics (out-of-bounds index, `unwrap` on `Err`) are modelled by
  `Option`-returning variants where a claim is about them
  (`words_by_length`) and by total defaults where the enclosing search
  provably never reaches them (`Mapping.set` inside `crack`);
* the rayon race (`par_bridge().find_map_any`) is modelled twice: a
  deterministic `crack` that scans candidates in order, and a predicate
  `crackCanReturn` that over-approximates the set of mappings any race
  winner could be (sound for universally quantified properties of the
  result).
-/

/-- `Mapping` from `src/main.rs` lines 6-10: `map` indexes an encoded
(ciphertext) letter `c` at position `c - 'A'` to its decoded letter,
`members` is the bitset of decoded letters already used. -/
structure Mapping where
  map : List (Option Nat)
  members : Nat
deriving DecidableEq

/-- `Mapping::default()` (derived `Default`): all entries unset, empty
bitset. -/
def Mapping.empty : Mapping := ⟨List.replicate 26 none, 0⟩

/-- `Mapping::get` (line 13): `self.map[(c - b'A') as usize]`. Out-of-range
indexing (which would panic in Rust) yields `none`. -/
def Mapping.get (m : Mapping) (c : Nat) : Option Nat :=
  m.map.getD (c - 65) none

/-- `Mapping::set` (lines 17-31): succeed iff the entry for `c` is unset or
already equal to `l`; on success return the copy with the entry written and
bit `l - 'a'` of `members` set. `none` models `Err(())`. -/
def Mapping.set (m : Mapping) (c l : Nat) : Option Mapping :=
  if m.map.getD (c - 65) none = none ∨ m.map.getD (c - 65) none = some l then
    some { map := m.map.set (c - 65) (some l),
           members := m.members ||| 2 ^ (l - 97) }
  else
    none

/-- `u8::is_ascii_uppercase`. -/
def isUpper (c : Nat) : Bool := 65 ≤ c && c ≤ 90

/-- `Mapping::apply` (lines 33-44): map each byte; an uppercase byte is
replaced by its decoded letter when set (`unwrap_or` keeps it otherwise),
every other byte passes through. -/
def Mapping.apply (m : Mapping) (ciper : List Nat) : List Nat :=
  ciper.map fun c => if isUpper c then (m.get c).getD c else c

/-- A structurally well-formed mapping: the table has its 26 entries.
Every `Mapping` the program builds satisfies this. -/
def Mapping.WF (m : Mapping) : Prop := m.map.length = 26

instance (m : Mapping) : Decidable m.WF := by
  unfold Mapping.WF; infer_instance

/-- `slice::split(|&b| b == sep)` from Rust: split on every occurrence of
the separator; consecutive separators and separators at either end produce
empty chunks, and the empty input produces one empty chunk. `crack` uses it
with the space byte 32 (line 101). -/
def splitByte (sep : Nat) : List Nat → List (List Nat)
  | [] => [[]]
  | c :: rest =>
    if c = sep then [] :: splitByte sep rest
    else
      match splitByte sep rest with
      | [] => [[c]]
      | w :: ws => (c :: w) :: ws

/-- itertools `permutations(k)` over a duplicate-free list: every ordered
selection of `k` distinct elements (line 106: `(0u8..26).permutations(k)`).
The evaluation order of the Rust iterator is irrelevant to the claims
because `par_bridge().find_map_any` already makes the scan order a race. -/
def kperms (l : List Nat) : Nat → List (List Nat)
  | 0 => [[]]
  | n + 1 => (l.map fun x => (kperms (l.erase x) n).map (x :: ·)).flatten

/-- `crack` lines 109-112: fold the prefix into a mapping, assigning
`prefix[i] ↦ 'a' + i`. The source `unwrap`s the `set`; the embedding keeps
the previous mapping in the (provably unreachable for duplicate-free
prefixes) error case. -/
def buildPfxAux : Mapping → Nat → List Nat → Mapping
  | m, _, [] => m
  | m, i, l :: rest => buildPfxAux ((m.set (65 + l) (97 + i)).getD m) (i + 1) rest

/-- The candidate partial mapping defined by an ordered selection of
ciphertext letters (given as offsets `0..25`, as in the source). -/
def buildPfx (pfx : List Nat) : Mapping :=
  buildPfxAux Mapping.empty 0 pfx

/-- `crack` lines 118-120: the `while fmapping.map[di].is_some()` scan,
advancing cyclically. The loop is bounded by fuel 26 here; the source's
loop terminates exactly when an unset entry exists among the 26, which the
completion invariant guarantees. -/
def findUnset (map : List (Option Nat)) : Nat → Nat → Nat
  | di, 0 => di % 26
  | di, fuel + 1 =>
    if map.getD (di % 26) none = none then di % 26
    else findUnset map (di + 1) fuel

/-- `crack` lines 116-122: the completion loop `for i in k..26`, assigning
each unset ciphertext letter found by the cyclic scan to the next plaintext
letter `'a' + i`. -/
def completeAux : Mapping → Nat → Nat → Nat → Mapping
  | m, _, _, 0 => m
  | m, di, i, fuel + 1 =>
    completeAux ((m.set (65 + findUnset m.map di 26) (97 + i)).getD m)
      (findUnset m.map di 26) (i + 1) fuel

/-- The completion step: extend `m` (a prefix of size `k`) starting the
cyclic scan at `offset`. -/
def complete (m : Mapping) (offset k : Nat) : Mapping :=
  completeAux m offset k (26 - k)

/-- `crack` lines 124-127: a completed mapping is valid iff every
ciphertext word decodes to a member of the dictionary bucket indexed by the
decoded word's length. Out-of-range bucket indexing (a panic in Rust, never
reached by `main`, which sizes the dictionary to the longest token) is the
empty bucket here. -/
def validMapping (cws : List (List Nat)) (dict : List (List (List Nat)))
    (m : Mapping) : Bool :=
  cws.all fun w => (dict.getD (m.apply w).length []).contains (m.apply w)

/-- `crack` lines 114-131: try the 26 completion offsets in order,
returning the first valid completed mapping. -/
def tryOffsets (m : Mapping) (k : Nat) (cws : List (List Nat))
    (dict : List (List (List Nat))) : Option Mapping :=
  (List.range 26).findSome? fun off =>
    if validMapping cws dict (complete m off k) = true then
      some (complete m off k)
    else none

/-- `crack` lines 100-141, determinised: iterative deepening over the
prefix size `k = 0..25`; for each `k` scan the `k`-permutations in order
(the source races them with rayon and keeps whichever valid completion
finishes first; scanning in order returns one of exactly those mappings). -/
def crack (ciper : List Nat) (dict : List (List (List Nat))) : Option Mapping :=
  (List.range 26).findSome? fun k =>
    (kperms (List.range 26) k).findSome? fun pfx =>
      tryOffsets (buildPfx pfx) k (splitByte 32 ciper) dict

/-- The set of mappings the racy `find_map_any` search could return: some
prefix size below 26, some `k`-permutation, some offset, producing exactly
this mapping, and the mapping validates. This over-approximates the
reachable results (it ignores that smaller `k` win first), which is sound
for the universally quantified claims about any returned mapping. -/
def crackCanReturn (ciper : List Nat) (dict : List (List (List Nat)))
    (m : Mapping) : Prop :=
  ∃ k, k < 26 ∧ ∃ pfx ∈ kperms (List.range 26) k, ∃ off, off < 26 ∧
    m = complete (buildPfx pfx) off k ∧
    validMapping (splitByte 32 ciper) dict m = true

/-- The shape of a prefix mapping of size `k`: a 26-entry table whose
assigned values are exactly the plaintext letters `'a' .. 'a' + k - 1`,
each exactly once (at pairwise distinct ciphertext positions, these being
table indices). -/
def pfxShape (m : Mapping) (k : Nat) : Prop :=
  m.map.length = 26 ∧
  (m.map.filterMap id).Perm ((List.range k).map (fun t => 97 + t))

/-- ASCII bytes of a lowercase string literal, for the curated word
lists. -/
def strBytes (s : String) : List Nat := s.toList.map Char.toNat

/-- The curated two-letter words (`words_by_length` lines 75-78). -/
def two_words : List (List Nat) :=
  ["am", "an", "as", "at", "be", "by", "do", "go", "he", "if", "in", "is",
   "it", "me", "my", "no", "of", "on", "or", "so", "to", "up", "us",
   "we"].map strBytes

/-- The curated three-letter words (`words_by_length` lines 79-84). -/
def three_words : List (List Nat) :=
  ["all", "and", "any", "are", "boy", "but", "can", "day", "did", "for",
   "get", "had", "has", "her", "him", "his", "how", "its", "let", "man",
   "new", "not", "now", "old", "one", "our", "out", "put", "say", "see",
   "she", "the", "too", "two", "use", "was", "way", "who",
   "you"].map strBytes

/-- A bounds-checked `Vec` element write: `v[i] = a` panics (here: `none`)
when `i` is out of range. -/
def setChecked {α : Type} (l : List α) (i : Nat) (a : α) : Option (List α) :=
  if i < l.length then some (l.set i a) else none

/-- `words_by_length` (lines 72-98), parameterised by the word list read
from the bundled `words.txt` (a build-time resource not present under
`src/`). Non-empty words of length at most `max_length` are pushed into
the bucket of their length (always in range), then the length-2 and
length-3 buckets are overwritten unconditionally — a panic, modelled as
`none`, when those indices do not exist. The final `HashSet` conversion
keeps the same membership and is omitted. -/
def words_by_length (words : List (List Nat)) (max_length : Nat) :
    Option (List (List (List Nat))) :=
  (setChecked
      ((words.filter fun w => !w.isEmpty && decide (w.length ≤ max_length)).foldl
        (fun acc w => acc.set w.length (acc.getD w.length [] ++ [w]))
        (List.replicate (max_length + 1) ([] : List (List Nat))))
      2 two_words).bind
    fun f2 => setChecked f2 3 three_words

/-- The dictionary of the single-letter scenario: the length-1 bucket
holds exactly the word "a". -/
def dict1 : List (List (List Nat)) := [[], [[97]]]

/- ### helper lemmas on lists -/

theorem list_getD_set_self {α : Type} (l : List α) (i : Nat) (a d : α)
    (h : i < l.length) : (l.set i a).getD i d = a := by
  induction l generalizing i with
  | nil => simp at h
  | cons x xs ih =>
    cases i with
    | zero => simp [List.set]
    | succ n =>
      simp only [List.set, List.getD_cons_succ]
      exact ih n (by simpa using h)

theorem list_getD_set_ne {α : Type} (l : List α) (i j : Nat) (a d : α)
    (h : i ≠ j) : (l.set i a).getD j d = l.getD j d := by
  induction l generalizing i j with
  | nil => simp [List.set]
  | cons x xs ih =>
    cases i with
    | zero =>
      cases j with
      | zero => exact absurd rfl h
      | succ n => simp [List.set]
    | succ n =>
      cases j with
      | zero => simp [List.set]
      | succ p =>
        simp only [List.set, List.getD_cons_succ]
        exact ih n p (by omega)

theorem list_set_getD_self {α : Type} (l : List α) (i : Nat) (d : α)
    (h : i < l.length) : l.set i (l.getD i d) = l := by
  induction l generalizing i with
  | nil => simp at h
  | cons x xs ih =>
    cases i with
    | zero => simp [List.set]
    | succ n =>
      simp only [List.set, List.getD_cons_succ, List.cons.injEq, true_and]
      exact ih n (by simpa using h)

theorem exists_of_findSome_some {α β : Type} {l : List α} {f : α → Option β}
    {b : β} (h : l.findSome? f = some b) : ∃ x ∈ l, f x = some b := by
  induction l with
  | nil => simp [List.findSome?] at h
  | cons y ys ih =>
    rw [List.findSome?_cons] at h
    cases hy : f y with
    | some v =>
      rw [hy] at h
      simp only at h
      exact ⟨y, by simp, by rw [hy, h]⟩
    | none =>
      rw [hy] at h
      simp only at h
      obtain ⟨x, hx, hfx⟩ := ih h
      exact ⟨x, by simp [hx], hfx⟩

theorem replicate_none_getD (n j : Nat) :
    (List.replicate n (none : Option Nat)).getD j none = none := by
  induction n generalizing j with
  | zero => simp
  | succ k ih =>
    cases j with
    | zero => simp [List.replicate]
    | succ p =>
      simp only [List.replicate, List.getD_cons_succ]
      exact ih p

theorem replicate_none_filterMap (n : Nat) :
    (List.replicate n (none : Option Nat)).filterMap id = [] := by
  induction n with
  | zero => simp
  | succ k ih => simp [List.replicate, ih]

theorem exists_none_of_filterMap_lt (l : List (Option Nat))
    (h : (l.filterMap id).length < l.length) :
    ∃ j, j < l.length ∧ l.getD j none = none := by
  induction l with
  | nil => simp at h
  | cons x xs ih =>
    cases x with
    | none => exact ⟨0, by simp, by simp⟩
    | some v =>
      simp only [List.filterMap_cons, List.length_cons, id] at h
      obtain ⟨j, hj, hnone⟩ := ih (by simpa using h)
      exact ⟨j + 1, by simpa using hj, by simpa using hnone⟩

theorem all_some_of_filterMap_len (l : List (Option Nat))
    (h : (l.filterMap id).length = l.length) :
    ∀ j, j < l.length → (l.getD j none).isSome = true := by
  induction l with
  | nil => simp
  | cons x xs ih =>
    cases x with
    | none =>
      exfalso
      have hle := List.length_filterMap_le id xs
      simp only [List.filterMap_cons, List.length_cons, id] at h
      omega
    | some v =>
      intro j hj
      cases j with
      | zero => simp
      | succ p =>
        simp only [List.getD_cons_succ]
        refine ih ?_ p (by simpa using hj)
        simp only [List.filterMap_cons, List.length_cons, id] at h
        omega

theorem filterMap_set_perm (l : List (Option Nat)) (d v : Nat)
    (hd : d < l.length) (hnone : l.getD d none = none) :
    ((l.set d (some v)).filterMap id).Perm (v :: l.filterMap id) := by
  induction l generalizing d with
  | nil => simp at hd
  | cons x xs ih =>
    cases d with
    | zero =>
      have hx : x = none := by simpa using hnone
      subst hx
      simp [List.set]
    | succ p =>
      have hp : p < xs.length := by simpa using hd
      have hnone' : xs.getD p none = none := by simpa using hnone
      cases x with
      | none =>
        simp only [List.set, List.filterMap_cons, id]
        exact ih p hp hnone'
      | some w =>
        simp only [List.set, List.filterMap_cons, id]
        exact ((ih p hp hnone').cons w).trans (List.Perm.swap v w _)

theorem findUnset_spec (map : List (Option Nat)) :
    ∀ fuel di, (∃ t, t < fuel ∧ map.getD ((di + t) % 26) none = none) →
      findUnset map di fuel < 26 ∧
      map.getD (findUnset map di fuel) none = none := by
  intro fuel
  induction fuel with
  | zero =>
    intro di h
    obtain ⟨t, ht, _⟩ := h
    omega
  | succ n ih =>
    intro di h
    by_cases hdi : map.getD (di % 26) none = none
    · simp only [findUnset]
      rw [if_pos hdi]
      exact ⟨Nat.mod_lt _ (by omega), hdi⟩
    · simp only [findUnset]
      rw [if_neg hdi]
      obtain ⟨t, ht, hnone⟩ := h
      cases t with
      | zero =>
        rw [Nat.add_zero] at hnone
        exact absurd hnone hdi
      | succ p =>
        refine ih (di + 1) ⟨p, by omega, ?_⟩
        have : di + (p + 1) = di + 1 + p := by omega
        rwa [this] at hnone

theorem findUnset_found (map : List (Option Nat)) (di : Nat) (hdi : di < 26)
    (hex : ∃ j, j < 26 ∧ map.getD j none = none) :
    findUnset map di 26 < 26 ∧
    map.getD (findUnset map di 26) none = none := by
  obtain ⟨j, hj, hnone⟩ := hex
  by_cases hle : di ≤ j
  · refine findUnset_spec map 26 di ⟨j - di, by omega, ?_⟩
    rw [show di + (j - di) = j by omega, Nat.mod_eq_of_lt hj]
    exact hnone
  · refine findUnset_spec map 26 di ⟨26 + j - di, by omega, ?_⟩
    rw [show di + (26 + j - di) = 26 + j by omega, Nat.add_mod_left,
      Nat.mod_eq_of_lt hj]
    exact hnone

/- ### theorems for the Mapping claims -/

/-- C3: `Mapping.set` does not enforce plaintext injectivity. If `c1`
already decodes to `l` and `c2` is unset, `set c2 l` still succeeds, and the
result decodes both `c1` and `c2` to `l`; the `members` bitset is updated
but never consulted. -/
theorem set_not_injective_check (m : Mapping) (c1 c2 l : Nat)
    (hwf : m.WF) (hc1 : 65 ≤ c1 ∧ c1 ≤ 90) (hc2 : 65 ≤ c2 ∧ c2 ≤ 90)
    (hne : c1 ≠ c2) (h1 : m.get c1 = some l) (h2 : m.get c2 = none) :
    ∃ m' : Mapping, m.set c2 l = some m' ∧
      m'.get c1 = some l ∧ m'.get c2 = some l := by
  unfold Mapping.get at h1 h2
  have hset : m.set c2 l =
      some ⟨m.map.set (c2 - 65) (some l), m.members ||| 2 ^ (l - 97)⟩ := by
    unfold Mapping.set
    rw [if_pos (Or.inl h2)]
  refine ⟨_, hset, ?_, ?_⟩
  · unfold Mapping.get
    simp only
    rw [list_getD_set_ne]
    · exact h1
    · omega
  · unfold Mapping.get
    simp only
    rw [list_getD_set_self]
    unfold Mapping.WF at hwf
    omega

/-- C3 witness: with `A ↦ a` already recorded, `set B a` succeeds and maps
both `A` and `B` to `a`. -/
theorem set_not_injective_check_witness :
    ∃ m' : Mapping,
      (Mapping.set ⟨(List.replicate 26 none).set 0 (some 97), 1⟩ 66 97)
        = some m' ∧
      m'.get 65 = some 97 ∧ m'.get 66 = some 97 :=
  set_not_injective_check ⟨(List.replicate 26 none).set 0 (some 97), 1⟩
    65 66 97 (by decide) (by decide) (by decide) (by decide)
    (by decide) (by decide)

/-- C4: conflict rejection. After a successful `set c l1`, a `set c l2`
with `l2 ≠ l1` fails (returns the error); being a pure function, the failed
attempt leaves the mapping it was called on untouched. -/
theorem set_conflict_reject (m m' : Mapping) (c l1 l2 : Nat)
    (hwf : m.WF) (hc : 65 ≤ c ∧ c ≤ 90) (hne : l1 ≠ l2)
    (h : m.set c l1 = some m') :
    m'.set c l2 = none := by
  unfold Mapping.set at h
  split at h
  case isTrue hcond =>
    obtain rfl : m' = _ := (Option.some.inj h).symm
    have hm' : (m.map.set (c - 65) (some l1)).getD (c - 65) none = some l1 :=
      list_getD_set_self m.map (c - 65) (some l1) none
        (by unfold Mapping.WF at hwf; omega)
    unfold Mapping.set
    simp only [hm']
    rw [if_neg]
    push_neg
    exact ⟨by simp, by simp [hne]⟩
  case isFalse hcond => exact Option.noConfusion h

/-- C4 witness: set `A ↦ a` on the empty mapping, then `set A b` fails. -/
theorem set_conflict_reject_witness :
    Mapping.set ⟨(List.replicate 26 none).set 0 (some 97),
      1⟩ 65 98 = none := by
  have h : Mapping.set Mapping.empty 65 97 =
      some ⟨(List.replicate 26 none).set 0 (some 97), 1⟩ := by decide
  exact set_conflict_reject Mapping.empty
    ⟨(List.replicate 26 none).set 0 (some 97), 1⟩ 65 97 98
    (by decide) (by decide) (by decide) h

/-- C7: `Mapping.apply` preserves length, rewrites each uppercase byte to
its decoded letter when set and keeps it otherwise, copies every other byte
unchanged, does not touch its input (it builds a new list), and is
deterministic (two runs on the same input are equal). -/
theorem apply_pointwise (m : Mapping) (text : List Nat) :
    (m.apply text).length = text.length ∧
    (∀ i, i < text.length →
      (m.apply text).getD i 0 =
        (if isUpper (text.getD i 0) then
          (m.get (text.getD i 0)).getD (text.getD i 0)
         else text.getD i 0)) ∧
    m.apply text = m.apply text := by
  refine ⟨by simp [Mapping.apply], ?_, rfl⟩
  intro i hi
  induction text generalizing i with
  | nil => simp at hi
  | cons x xs ih =>
    cases i with
    | zero => simp [Mapping.apply]
    | succ n =>
      simp only [Mapping.apply, List.map_cons, List.getD_cons_succ]
      exact ih n (by simpa using hi)

/-- C7 witness: the pointwise description at a concrete mapping and text. -/
theorem apply_pointwise_witness :
    (Mapping.empty.apply [65, 33]).length = 2 ∧
    (Mapping.empty.apply [65, 33]).getD 0 0 =
      (if isUpper ([65, 33].getD 0 0) then
        (Mapping.empty.get ([65, 33].getD 0 0)).getD ([65, 33].getD 0 0)
       else [65, 33].getD 0 0) :=
  ⟨(apply_pointwise Mapping.empty [65, 33]).1,
   (apply_pointwise Mapping.empty [65, 33]).2.1 0 (by decide)⟩

/-- C8: `set` is idempotent. If `set c l` succeeds and yields `m'`, running
`set c l` on `m'` succeeds again and returns a mapping equal to `m'` (same
table, same bitset). -/
theorem set_idem (m m' : Mapping) (c l : Nat)
    (hwf : m.WF) (hc : 65 ≤ c ∧ c ≤ 90)
    (h : m.set c l = some m') :
    m'.set c l = some m' := by
  unfold Mapping.set at h
  split at h
  case isTrue hcond =>
    obtain rfl : m' = _ := (Option.some.inj h).symm
    have hlen : (m.map.set (c - 65) (some l)).length = 26 := by
      simp only [List.length_set]
      exact hwf
    have hm' : (m.map.set (c - 65) (some l)).getD (c - 65) none = some l :=
      list_getD_set_self m.map (c - 65) (some l) none
        (by unfold Mapping.WF at hwf; omega)
    unfold Mapping.set
    rw [if_pos (Or.inr hm')]
    have hmap : (m.map.set (c - 65) (some l)).set (c - 65) (some l) =
        m.map.set (c - 65) (some l) := by
      have := list_set_getD_self (m.map.set (c - 65) (some l)) (c - 65)
        (none : Option Nat) (by omega)
      rwa [hm'] at this
    have hmem : m.members ||| 2 ^ (l - 97) ||| 2 ^ (l - 97) =
        m.members ||| 2 ^ (l - 97) := by
      rw [Nat.or_assoc, Nat.or_self]
    simp only [hmap, hmem]
  case isFalse hcond => exact Option.noConfusion h

/-- C8 witness: `set A a` twice from the empty mapping. -/
theorem set_idem_witness :
    Mapping.set ⟨(List.replicate 26 none).set 0 (some 97), 1⟩ 65 97 =
      some ⟨(List.replicate 26 none).set 0 (some 97), 1⟩ := by
  have h : Mapping.set Mapping.empty 65 97 =
      some ⟨(List.replicate 26 none).set 0 (some 97), 1⟩ := by decide
  exact set_idem Mapping.empty
    ⟨(List.replicate 26 none).set 0 (some 97), 1⟩ 65 97
    (by decide) (by decide) h

/- ### the completion invariant -/

theorem completeAux_spec :
    ∀ fuel (m : Mapping) (di i : Nat), m.map.length = 26 → di < 26 →
      i + fuel = 26 →
      (m.map.filterMap id).Perm ((List.range i).map (fun t => 97 + t)) →
      (completeAux m di i fuel).map.length = 26 ∧
      ((completeAux m di i fuel).map.filterMap id).Perm
        ((List.range (i + fuel)).map (fun t => 97 + t)) := by
  intro fuel
  induction fuel with
  | zero =>
    intro m di i hlen hdi hif hperm
    simpa [completeAux] using ⟨hlen, hperm⟩
  | succ n ih =>
    intro m di i hlen hdi hif hperm
    have hcnt : (m.map.filterMap id).length = i := by
      rw [hperm.length_eq, List.length_map, List.length_range]
    have hex : ∃ j, j < 26 ∧ m.map.getD j none = none := by
      obtain ⟨j, hj, hn⟩ := exists_none_of_filterMap_lt m.map (by omega)
      exact ⟨j, by omega, hn⟩
    obtain ⟨hd26, hdnone⟩ := findUnset_found m.map di hdi hex
    have hset : m.set (65 + findUnset m.map di 26) (97 + i) =
        some ⟨m.map.set (findUnset m.map di 26) (some (97 + i)),
              m.members ||| 2 ^ (97 + i - 97)⟩ := by
      unfold Mapping.set
      rw [show 65 + findUnset m.map di 26 - 65 = findUnset m.map di 26 by
        omega]
      rw [if_pos (Or.inl hdnone)]
    simp only [completeAux, hset, Option.getD_some]
    rw [show i + (n + 1) = (i + 1) + n by omega]
    refine ih _ (findUnset m.map di 26) (i + 1) (by simp [hlen]) hd26
      (by omega) ?_
    have h1 := filterMap_set_perm m.map (findUnset m.map di 26) (97 + i)
      (by omega) hdnone
    simp only [List.range_succ, List.map_append, List.map_cons, List.map_nil]
    exact h1.trans ((hperm.cons _).trans
      (List.perm_append_singleton _ _).symm)

/-- C2: for any prefix mapping of size `k < 26` and any offset below 26,
the completion step produces a mapping in which every one of the 26
ciphertext letters is assigned (the table is total) and the assigned
plaintext letters are exactly `'a' .. 'z'`, each exactly once — at pairwise
distinct ciphertext positions, those being distinct table indices. -/
theorem complete_total (m : Mapping) (k off : Nat) (hk : k < 26)
    (hoff : off < 26) (hm : pfxShape m k) :
    (∀ j, j < 26 → ((complete m off k).map.getD j none).isSome = true) ∧
    ((complete m off k).map.filterMap id).Perm
      ((List.range 26).map (fun t => 97 + t)) := by
  obtain ⟨hlen, hperm⟩ := hm
  unfold complete
  have h := completeAux_spec (26 - k) m off k hlen hoff (by omega) hperm
  rw [show k + (26 - k) = 26 by omega] at h
  obtain ⟨hlen', hperm'⟩ := h
  refine ⟨?_, hperm'⟩
  intro j hj
  refine all_some_of_filterMap_len _ ?_ j (by omega)
  rw [hperm'.length_eq, List.length_map, List.length_range, hlen']

/-- C2 witness: the empty prefix (size 0) at offset 0 completes to a total
table, sampled at ciphertext position 0. -/
theorem complete_total_witness :
    ((complete Mapping.empty 0 0).map.getD 0 none).isSome = true ∧
    ((complete Mapping.empty 0 0).map.filterMap id).Perm
      ((List.range 26).map (fun t => 97 + t)) :=
  ⟨(complete_total Mapping.empty 0 0 (by decide) (by decide)
      ⟨by decide, by decide⟩).1 0 (by decide),
   (complete_total Mapping.empty 0 0 (by decide) (by decide)
      ⟨by decide, by decide⟩).2⟩

/- ### the prefix-building invariant -/

theorem buildPfxAux_spec :
    ∀ (pfx : List Nat) (m : Mapping) (i : Nat), m.map.length = 26 →
      (∀ x ∈ pfx, x < 26 ∧ m.map.getD x none = none) → pfx.Nodup →
      (m.map.filterMap id).Perm ((List.range i).map (fun t => 97 + t)) →
      (buildPfxAux m i pfx).map.length = 26 ∧
      ((buildPfxAux m i pfx).map.filterMap id).Perm
        ((List.range (i + pfx.length)).map (fun t => 97 + t)) := by
  intro pfx
  induction pfx with
  | nil =>
    intro m i hlen _ _ hperm
    simpa [buildPfxAux] using ⟨hlen, hperm⟩
  | cons l rest ih =>
    intro m i hlen hmem hnd hperm
    obtain ⟨hl26, hlnone⟩ := hmem l (by simp)
    have hlnotrest : l ∉ rest := (List.nodup_cons.mp hnd).1
    have hset : m.set (65 + l) (97 + i) =
        some ⟨m.map.set l (some (97 + i)),
              m.members ||| 2 ^ (97 + i - 97)⟩ := by
      unfold Mapping.set
      rw [show 65 + l - 65 = l by omega]
      rw [if_pos (Or.inl hlnone)]
    simp only [buildPfxAux, hset, Option.getD_some]
    rw [show i + (l :: rest).length = (i + 1) + rest.length by
      simp only [List.length_cons]; omega]
    refine ih _ (i + 1) (by simp [hlen]) ?_ (List.Nodup.of_cons hnd) ?_
    · intro x hx
      obtain ⟨hx26, hxnone⟩ := hmem x (by simp [hx])
      refine ⟨hx26, ?_⟩
      rw [list_getD_set_ne]
      · exact hxnone
      · intro hcontra
        exact hlnotrest (hcontra ▸ hx)
    · have h1 := filterMap_set_perm m.map l (97 + i) (by omega) hlnone
      simp only [List.range_succ, List.map_append, List.map_cons,
        List.map_nil]
      exact h1.trans ((hperm.cons _).trans
        (List.perm_append_singleton _ _).symm)

theorem buildPfx_shape (pfx : List Nat) (h : ∀ x ∈ pfx, x < 26)
    (hnd : pfx.Nodup) : pfxShape (buildPfx pfx) pfx.length := by
  have hspec := buildPfxAux_spec pfx Mapping.empty 0
    (by simp [Mapping.empty])
    (fun x hx => ⟨h x hx, replicate_none_getD 26 x⟩) hnd
    (by simp only [Mapping.empty]
        rw [replicate_none_filterMap]
        simp)
  unfold buildPfx
  rw [show (0 : Nat) + pfx.length = pfx.length by omega] at hspec
  exact hspec

/- ### k-permutations -/

theorem kperms_mem :
    ∀ (k : Nat) (l : List Nat), l.Nodup → ∀ pfx ∈ kperms l k,
      pfx.length = k ∧ pfx.Nodup ∧ ∀ x ∈ pfx, x ∈ l := by
  intro k
  induction k with
  | zero =>
    intro l _ pfx hpfx
    simp only [kperms, List.mem_singleton] at hpfx
    subst hpfx
    simp
  | succ n ih =>
    intro l hnd pfx hpfx
    simp only [kperms] at hpfx
    rw [List.mem_flatten] at hpfx
    obtain ⟨L, hL, hpfxL⟩ := hpfx
    rw [List.mem_map] at hL
    obtain ⟨x, hxl, rfl⟩ := hL
    rw [List.mem_map] at hpfxL
    obtain ⟨q, hq, rfl⟩ := hpfxL
    obtain ⟨hqlen, hqnd, hqmem⟩ := ih (l.erase x) (hnd.erase x) q hq
    have hxq : x ∉ q := by
      intro hxq
      have hx := hqmem x hxq
      rw [hnd.mem_erase_iff] at hx
      exact hx.1 rfl
    refine ⟨by simp [hqlen], List.nodup_cons.mpr ⟨hxq, hqnd⟩, ?_⟩
    intro y hy
    rcases List.mem_cons.mp hy with h | h
    · subst h; exact hxl
    · exact List.mem_of_mem_erase (hqmem y h)

/- ### claims about `crack` -/

/-- C9: every mapping the `crack` search can return is a full bijection:
all 26 ciphertext letters are assigned, and the assigned plaintext letters
are pairwise distinct (in fact exactly the whole alphabet). The prefix
assigns distinct plaintext positions to distinct ciphertext letters, the
completion targets only unset ciphertext letters with the remaining
plaintext letters, so the permissive `set` never yields a non-injective
result through the search. -/
theorem crack_result_bijective (ciper : List Nat)
    (dict : List (List (List Nat))) (m : Mapping)
    (h : crackCanReturn ciper dict m) :
    (∀ j, j < 26 → (m.map.getD j none).isSome = true) ∧
    (m.map.filterMap id).Nodup := by
  obtain ⟨k, hk, pfx, hpfx, off, hoff, rfl, hval⟩ := h
  obtain ⟨hplen, hpnd, hpmem⟩ := kperms_mem k (List.range 26)
    (List.nodup_range 26) pfx hpfx
  have hshape : pfxShape (buildPfx pfx) k := by
    rw [← hplen]
    exact buildPfx_shape pfx (fun x hx => List.mem_range.mp (hpmem x hx)) hpnd
  obtain ⟨hsome, hperm⟩ := complete_total (buildPfx pfx) k off hk hoff hshape
  refine ⟨hsome, hperm.symm.nodup ?_⟩
  refine (List.nodup_range 26).map ?_
  intro a b hab
  have hab' : 97 + a = 97 + b := hab
  omega

set_option maxRecDepth 20000 in
/-- C9 witness: the completion of the empty prefix at offset 0 is in the
returnable set for the single-letter ciphertext, is total at position 0,
and has pairwise distinct assigned letters. -/
theorem crack_result_bijective_witness :
    ((complete (buildPfx []) 0 0).map.getD 0 none).isSome = true ∧
    ((complete (buildPfx []) 0 0).map.filterMap id).Nodup := by
  have hcan : crackCanReturn [65] dict1 (complete (buildPfx []) 0 0) :=
    ⟨0, by omega, [], by simp [kperms], 0, by omega, rfl, by decide⟩
  exact ⟨(crack_result_bijective [65] dict1 _ hcan).1 0 (by decide),
    (crack_result_bijective [65] dict1 _ hcan).2⟩

/-- C1: if `crack` returns a mapping, then decoding every space-separated
token of the ciphertext with it yields a word contained in the dictionary
bucket indexed by the token's length. -/
theorem crack_valid_of_some (ciper : List Nat)
    (dict : List (List (List Nat))) (m : Mapping)
    (h : crack ciper dict = some m) :
    ∀ w ∈ splitByte 32 ciper,
      ((dict.getD w.length []).contains (m.apply w)) = true := by
  unfold crack at h
  obtain ⟨k, hk, h1⟩ := exists_of_findSome_some h
  obtain ⟨pfx, hpfx, h2⟩ := exists_of_findSome_some h1
  unfold tryOffsets at h2
  obtain ⟨off, hoff, h3⟩ := exists_of_findSome_some h2
  split at h3
  case isTrue hval =>
    obtain rfl : m = _ := (Option.some.inj h3).symm
    intro w hw
    unfold validMapping at hval
    have hthis := List.all_eq_true.mp hval w hw
    rwa [show ((complete (buildPfx pfx) off k).apply w).length = w.length
      from by simp [Mapping.apply]] at hthis
  case isFalse => exact Option.noConfusion h3

set_option maxRecDepth 20000 in
/-- C1 witness: for the one-letter ciphertext "A" and the dictionary whose
length-1 bucket is exactly the word "a", `crack` returns the identity-like
completion and its decode of the single token is in the bucket. -/
theorem crack_valid_of_some_witness :
    ((dict1.getD ([65] : List Nat).length []).contains
      ((complete (buildPfx []) 0 0).apply [65])) = true := by
  have h : crack [65] dict1 = some (complete (buildPfx []) 0 0) := by decide
  exact crack_valid_of_some [65] dict1 _ h [65] (by decide)

/-- C5: if some token of the ciphertext has a length whose dictionary
bucket is empty, `crack` exhausts every prefix size `k = 0..25` and returns
failure — no completion can validate, at any `k` or offset. -/
theorem crack_none_of_empty_bucket (ciper : List Nat)
    (dict : List (List (List Nat)))
    (h : ∃ w ∈ splitByte 32 ciper, dict.getD w.length [] = []) :
    crack ciper dict = none := by
  obtain ⟨w, hw, hempty⟩ := h
  unfold crack
  rw [List.findSome?_eq_none_iff]
  intro k _
  rw [List.findSome?_eq_none_iff]
  intro pfx _
  unfold tryOffsets
  rw [List.findSome?_eq_none_iff]
  intro off _
  have hnv : ¬ (validMapping (splitByte 32 ciper) dict
      (complete (buildPfx pfx) off k) = true) := by
    intro hval
    unfold validMapping at hval
    have hthis := List.all_eq_true.mp hval w hw
    rw [show ((complete (buildPfx pfx) off k).apply w).length = w.length
      from by simp [Mapping.apply]] at hthis
    rw [hempty] at hthis
    simp at hthis
  rw [if_neg hnv]

set_option maxRecDepth 20000 in
/-- C5 witness: a one-letter token with an empty length-1 bucket makes
`crack` fail. -/
theorem crack_none_of_empty_bucket_witness :
    crack [65] [[], []] = none :=
  crack_none_of_empty_bucket [65] [[], []] ⟨[65], by decide, by decide⟩

set_option maxRecDepth 20000 in
set_option maxHeartbeats 2000000 in
/-- C6: for a ciphertext that is a single one-letter token (any ciphertext
letter) and a dictionary whose length-1 bucket holds exactly the word "a",
`crack` succeeds, and every mapping the (racy) search can return decodes
that ciphertext letter to `a`. -/
theorem crack_single_letter_a (c : Nat) (h1 : 65 ≤ c) (h2 : c ≤ 90) :
    (crack [c] dict1).isSome = true ∧
    (∀ m : Mapping, crackCanReturn [c] dict1 m → m.get c = some 97) := by
  constructor
  · interval_cases c <;> decide
  · intro m hm
    obtain ⟨k, hk, pfx, hpfx, off, hoff, rfl, hval⟩ := hm
    have hsplit : splitByte 32 [c] = [[c]] := by
      simp [splitByte, show ¬(c = 32) by omega]
    rw [hsplit] at hval
    unfold validMapping at hval
    have hall := List.all_eq_true.mp hval [c] (by simp)
    have hup : isUpper c = true := by simp [isUpper]; omega
    have happly : (complete (buildPfx pfx) off k).apply [c] =
        [((complete (buildPfx pfx) off k).get c).getD c] := by
      simp [Mapping.apply, hup]
    rw [happly] at hall
    simp only [dict1, List.length_cons, List.length_nil] at hall
    simp at hall
    cases hg : (complete (buildPfx pfx) off k).get c with
    | none =>
      rw [hg] at hall
      simp at hall
      omega
    | some v =>
      rw [hg] at hall
      simp at hall
      rw [hall]

set_option maxRecDepth 20000 in
/-- C6 witness: at the concrete ciphertext letter `B` the search succeeds,
and the offset-1 completion of the empty prefix — a returnable mapping —
decodes `B` to `a`. -/
theorem crack_single_letter_a_witness :
    (crack [66] dict1).isSome = true ∧
    (complete (buildPfx []) 1 0).get 66 = some 97 := by
  have h := crack_single_letter_a 66 (by decide) (by decide)
  refine ⟨h.1, h.2 (complete (buildPfx []) 1 0) ?_⟩
  exact ⟨0, by omega, [], by simp [kperms], 1, by omega, rfl, by decide⟩

/- ### the dictionary constructor -/

theorem foldl_set_length (ws : List (List Nat)) :
    ∀ acc : List (List (List Nat)),
      (ws.foldl (fun acc w => acc.set w.length (acc.getD w.length [] ++ [w]))
        acc).length = acc.length := by
  induction ws with
  | nil => intro acc; rfl
  | cons w rest ih =>
    intro acc
    rw [List.foldl_cons, ih, List.length_set]

theorem setChecked_chain (filled : List (List (List Nat))) (n : Nat)
    (hlen : filled.length = n) :
    (n < 4 → (setChecked filled 2 two_words).bind
        (fun f2 => setChecked f2 3 three_words) = none) ∧
    (4 ≤ n → ((setChecked filled 2 two_words).bind
        (fun f2 => setChecked f2 3 three_words)).isSome = true) := by
  constructor
  · intro h
    unfold setChecked
    by_cases h2 : (2 : Nat) < n
    · rw [if_pos (by omega : 2 < filled.length)]
      show setChecked (filled.set 2 two_words) 3 three_words = none
      unfold setChecked
      rw [if_neg (by rw [List.length_set]; omega)]
    · rw [if_neg (by omega : ¬ 2 < filled.length)]
      rfl
  · intro h
    unfold setChecked
    rw [if_pos (by omega : 2 < filled.length)]
    show (setChecked (filled.set 2 two_words) 3 three_words).isSome = true
    unfold setChecked
    rw [if_pos (by rw [List.length_set]; omega)]
    rfl

/-- C10: `words_by_length` unconditionally overwrites the length-2 and
length-3 buckets of a buffer sized `max_length + 1`, so it panics (here:
`none`) for every `max_length < 3`, for any word list, and only succeeds —
is total — when `max_length ≥ 3`. -/
theorem words_by_length_totality (words : List (List Nat))
    (max_length : Nat) :
    (max_length < 3 → words_by_length words max_length = none) ∧
    (3 ≤ max_length → (words_by_length words max_length).isSome = true) := by
  have h := setChecked_chain
    ((words.filter fun w =>
        !w.isEmpty && decide (w.length ≤ max_length)).foldl
      (fun acc w => acc.set w.length (acc.getD w.length [] ++ [w]))
      (List.replicate (max_length + 1) ([] : List (List Nat))))
    (max_length + 1)
    (by rw [foldl_set_length, List.length_replicate])
  unfold words_by_length
  constructor
  · intro h3
    exact h.1 (by omega)
  · intro h3
    exact h.2 (by omega)

set_option maxRecDepth 20000 in
/-- C10 witness: construction fails at `max_length = 2` and succeeds at
`max_length = 3`, with the empty bundled word list. -/
theorem words_by_length_totality_witness :
    words_by_length [] 2 = none ∧ (words_by_length [] 3).isSome = true :=
  ⟨(words_by_length_totality [] 2).1 (by decide),
   (words_by_length_totality [] 3).2 (by decide)⟩
